import Mathlib

/-!
Shallow embedding of `src/python/prime_finder.py` (concurrent-prime-finder).

Python integers are modelled as `Int`.  For the divisors that actually occur
(all positive), Python's `%` and `//` agree with Lean's `Int.emod` / `Int.ediv`;
the one place Python `//` is applied to a possibly negative numerator
(`(end - start + 1) // num_threads`) is modelled with `Int.fdiv`, which is
floor division exactly as in Python, and `Int.fdiv_eq_ediv` bridges the two.
A Python expression that raises (`ZeroDivisionError` when `num_threads == 0`)
is modelled as `none` of an `Option` result.
-/

namespace PrimeFinder

/-- The `while i * i <= n` trial-division loop of `is_prime`
(`prime_finder.py` lines 20-25), written with an explicit fuel argument so
that it is structurally recursive.  When the fuel reaches `0` we have
`i * i ≥ n + 1 > n`, which is exactly the loop's exit condition, so the
`0`-fuel answer `true` coincides with the loop's behaviour whenever the
fuel is at least `n + 1 - i * i` (proved in `loop6Aux_congr`). -/
def loop6Aux : Nat → Nat → Nat → Bool
  | 0, _, _ => true
  | fuel + 1, n, i =>
    if i * i ≤ n then
      if n % i = 0 ∨ n % (i + 2) = 0 then false
      else loop6Aux fuel n (i + 6)
    else true

/-- The trial-division loop of `is_prime`, run with sufficient fuel. -/
def loop6 (n i : Nat) : Bool := loop6Aux (n + 1 - i * i) n i

/-- Function `is_prime` from `prime_finder.py` lines 11-25.  The loop is entered only
when `n ≥ 5`, so running it on `n.toNat` is faithful to the Python code. -/
def is_prime (n : Int) : Bool :=
  if n ≤ 1 then false
  else if n ≤ 3 then true
  else if n % 2 = 0 ∨ n % 3 = 0 then false
  else loop6 n.toNat 5

/-- Python `range(a, b)` (step 1) as a list of integers. -/
def intRange (a b : Int) : List Int :=
  (List.range (b - a).toNat).map (fun k : Nat => a + (k : Int))

/-- Function `find_primes_in_range` from `prime_finder.py` lines 27-29:
`[i for i in range(start, end + 1) if is_prime(i)]`. -/
def find_primes_in_range (start e : Int) : List Int :=
  (intRange start (e + 1)).filter is_prime

/-- Function `find_primes_sequential` (lines 31-36), minus the wall-clock timing,
which is not part of the value model. -/
def find_primes_sequential (start e : Int) : List Int :=
  find_primes_in_range start e

/-- The chunk-size computation shared by `find_primes_threading`
(lines 42-44) and `find_primes_multiprocessing` (lines 72-74):
`chunk_size = (end - start + 1) // num_threads; if chunk_size < 1: chunk_size = 1`.
Python `//` is floor division (`Int.fdiv`); dividing by `0` raises
`ZeroDivisionError`, modelled as `none`.  Note the division happens
before the clamp. -/
def chunk_size_calc (start e : Int) (w : Nat) : Option Int :=
  if w = 0 then none
  else
    some (if (e - start + 1).fdiv (w : Int) < 1 then 1 else (e - start + 1).fdiv (w : Int))

/-- Python `range(a, b, s)` for a positive step `s`, as a list of integers.
The element count is `max 0 ⌈(b - a) / s⌉ = ((b - a + s - 1) / s).toNat`. -/
def intRangeStep (a b s : Int) : List Int :=
  (List.range ((b - a + s - 1) / s).toNat).map (fun k : Nat => a + s * (k : Int))

/-- The chunk walk shared by both fan-out strategies (lines 56-57 and 78-80):
for `i in range(start, end + 1, chunk_size)` emit the chunk
`(i, min(i + chunk_size - 1, end))`. -/
def chunkWalk (start e cs : Int) : List (Int × Int) :=
  (intRangeStep start (e + 1) cs).map (fun i => (i, min (i + cs - 1) e))

/-- The full partition used by `find_primes_threading` and
`find_primes_multiprocessing`: chunk size from `chunk_size_calc`, then the
chunk walk.  `[]` in the `none` case is an arbitrary placeholder; the
strategies below propagate the `none` instead. -/
def py_chunks (start e : Int) (w : Nat) : List (Int × Int) :=
  match chunk_size_calc start e w with
  | none => []
  | some cs => chunkWalk start e cs

/-- Python's `sorted` on a list of integers (ascending).  Any comparison
sort gives the same result on a total antisymmetric order; we use
insertion sort, which is structurally recursive and kernel-computable. -/
def sortAsc (l : List Int) : List Int :=
  l.insertionSort (· ≤ ·)

/-- Concatenation of the per-chunk prime lists: each worker computes
`find_primes_in_range` on its chunk and the results are appended. -/
def merge_chunks (chunks : List (Int × Int)) : List Int :=
  (chunks.map (fun c => find_primes_in_range c.1 c.2)).flatten

/-- Function `find_primes_threading` (lines 38-66), minus timing.  Each worker
appends its chunk's primes to the shared `all_primes` list under a lock,
so the pre-sort contents are the per-chunk lists concatenated in the
nondeterministic order `arrival` in which workers acquired the lock;
theorems constrain `arrival` to be a permutation of the dispatched chunks.
`none` models the `ZeroDivisionError` raised when `num_threads = 0`. -/
def find_primes_threading (start e : Int) (w : Nat)
    (arrival : List (Int × Int)) : Option (List Int) :=
  match chunk_size_calc start e w with
  | none => none
  | some _ => some (sortAsc (merge_chunks arrival))

/-- Function `find_primes_multiprocessing` (lines 68-92), minus timing: per-chunk
results are collected in dispatch order, flattened and sorted.  `none`
models the `ZeroDivisionError` raised when `num_processes = 0`.
Caveat (the divergence recorded by the code_bug claims C3, C7 and C9):
this is the intended dataflow.  The live function passes an unpicklable
lambda to `ProcessPoolExecutor.map` (line 84), so whenever at least one
chunk is dispatched — every nonempty range — iterating the results raises
`PicklingError` and no value is returned.  On an empty range no task is
submitted, nothing is pickled, and the live function genuinely returns
the empty list this model gives. -/
def find_primes_multiprocessing (start e : Int) (w : Nat) : Option (List Int) :=
  match chunk_size_calc start e w with
  | none => none
  | some cs => some (sortAsc (merge_chunks (chunkWalk start e cs)))

/-- The loop's result does not depend on the fuel once the fuel is at least
`n + 1 - i * i`: the loop stabilizes after finitely many iterations. -/
theorem loop6Aux_congr :
    ∀ (f₁ f₂ n i : Nat), n + 1 - i * i ≤ f₁ → n + 1 - i * i ≤ f₂ →
      loop6Aux f₁ n i = loop6Aux f₂ n i := by
  intro f₁
  induction f₁ with
  | zero =>
    intro f₂ n i h₁ h₂
    have hni : ¬ i * i ≤ n := by omega
    cases f₂ with
    | zero => rfl
    | succ f => simp [loop6Aux, hni]
  | succ f₁ ih =>
    intro f₂ n i h₁ h₂
    cases f₂ with
    | zero =>
      have hni : ¬ i * i ≤ n := by omega
      simp [loop6Aux, hni]
    | succ f₂ =>
      simp only [loop6Aux]
      by_cases hc : i * i ≤ n
      · simp only [hc, if_true]
        by_cases hd : n % i = 0 ∨ n % (i + 2) = 0
        · simp [hd]
        · have hsq : (i + 6) * (i + 6) = i * i + (12 * i + 36) := by ring
          simp only [hd, if_neg, ite_false]
          exact ih f₂ n (i + 6) (by omega) (by omega)
      · simp [hc]

/-- Unfolding equation for `loop6`: it is exactly one iteration of the
Python `while` loop of `is_prime`. -/
theorem loop6_unfold (n i : Nat) :
    loop6 n i =
      if i * i ≤ n then
        (if n % i = 0 ∨ n % (i + 2) = 0 then false else loop6 n (i + 6))
      else true := by
  by_cases hc : i * i ≤ n
  · have h1 : 0 < n + 1 - i * i := by omega
    obtain ⟨f, hf⟩ : ∃ f, n + 1 - i * i = f + 1 := ⟨n - i * i, by omega⟩
    have hsq : (i + 6) * (i + 6) = i * i + (12 * i + 36) := by ring
    simp only [loop6, hf, loop6Aux, hc, if_true]
    by_cases hd : n % i = 0 ∨ n % (i + 2) = 0
    · simp [hd]
    · simp only [hd, ite_false, if_neg]
      exact loop6Aux_congr f (n + 1 - (i + 6) * (i + 6)) n (i + 6) (by omega) (le_refl _)
  · have h0 : n + 1 - i * i = 0 := by omega
    simp [loop6, h0, loop6Aux, hc]

/-- The loop at position `i` returns `true` exactly when no candidate
`i + 6k` with square at most `n`, nor its companion `i + 6k + 2`,
divides `n`.  (The companion is tested whenever `(i + 6k)² ≤ n`,
exactly as in the source, where the guard is on `i`, not `i + 2`.) -/
def noWheelDivisor (n i : Nat) : Prop :=
  ∀ j : Nat, (i + 6 * j) * (i + 6 * j) ≤ n →
    ¬((i + 6 * j) ∣ n) ∧ ¬((i + 6 * j + 2) ∣ n)

theorem noWheelDivisor_of_sq_gt {n i : Nat} (hc : ¬ i * i ≤ n) :
    noWheelDivisor n i := by
  intro j hj
  have hmono : i * i ≤ (i + 6 * j) * (i + 6 * j) :=
    Nat.mul_le_mul (by omega) (by omega)
  omega

theorem loop6Aux_eq_true_iff :
    ∀ (fuel : Nat) {n i : Nat}, 0 < i → n + 1 - i * i ≤ fuel →
      (loop6Aux fuel n i = true ↔ noWheelDivisor n i) := by
  intro fuel
  induction fuel with
  | zero =>
    intro n i _ hf
    exact iff_of_true rfl (noWheelDivisor_of_sq_gt (by omega))
  | succ fuel ih =>
    intro n i hi hf
    by_cases hc : i * i ≤ n
    · by_cases hd : n % i = 0 ∨ n % (i + 2) = 0
      · simp only [loop6Aux, hc, if_true, hd, ite_true]
        refine iff_of_false (by simp) (fun hnw => ?_)
        rcases hnw 0 (by simpa using hc) with ⟨h1, h2⟩
        rcases hd with hd | hd
        · exact h1 (by simpa using Nat.dvd_of_mod_eq_zero hd)
        · exact h2 (by simpa using Nat.dvd_of_mod_eq_zero hd)
      · have hsq : (i + 6) * (i + 6) = i * i + (12 * i + 36) := by ring
        have key := ih (n := n) (i := i + 6) (by omega) (by omega)
        simp only [loop6Aux, hc, if_true, hd, ite_false]
        rw [key]
        constructor
        · intro hnw6 j hj
          cases j with
          | zero =>
            push_neg at hd
            refine ⟨fun hdvd => hd.1 ?_, fun hdvd => hd.2 ?_⟩
            · exact Nat.mod_eq_zero_of_dvd (by simpa using hdvd)
            · exact Nat.mod_eq_zero_of_dvd (by simpa using hdvd)
          | succ j =>
            have harith : i + 6 * (j + 1) = i + 6 + 6 * j := by ring
            rw [harith] at hj ⊢
            exact hnw6 j hj
        · intro hnw j hj
          have harith : i + 6 + 6 * j = i + 6 * (j + 1) := by ring
          rw [harith] at hj ⊢
          exact hnw (j + 1) hj
    · simp only [loop6Aux, hc, if_false]
      exact iff_of_true (by simp [hc]) (noWheelDivisor_of_sq_gt hc)

theorem loop6_eq_true_iff {n i : Nat} (hi : 0 < i) :
    loop6 n i = true ↔ noWheelDivisor n i :=
  loop6Aux_eq_true_iff _ hi (le_refl _)

/-- Correctness of `is_prime`: it returns `true` exactly on the integers
`n ≥ 2` whose value is a prime number. -/
theorem is_prime_correct (n : Int) :
    is_prime n = true ↔ 2 ≤ n ∧ Nat.Prime n.toNat := by
  unfold is_prime
  by_cases h1 : n ≤ 1
  · rw [if_pos h1]
    exact iff_of_false (by simp) (fun h => by omega)
  · rw [if_neg h1]
    by_cases h2 : n ≤ 3
    · rw [if_pos h2]
      refine iff_of_true rfl ⟨by omega, ?_⟩
      have hn : n = 2 ∨ n = 3 := by omega
      rcases hn with h | h <;> subst h <;> decide
    · rw [if_neg h2]
      by_cases h3 : n % 2 = 0 ∨ n % 3 = 0
      · rw [if_pos h3]
        refine iff_of_false (by simp) (fun h => ?_)
        obtain ⟨-, hp⟩ := h
        have hm4 : 4 ≤ n.toNat := by omega
        rcases h3 with h3 | h3
        · have hmod : n.toNat % 2 = 0 := by omega
          rcases hp.eq_one_or_self_of_dvd 2 (Nat.dvd_of_mod_eq_zero hmod)
            with h' | h' <;> omega
        · have hmod : n.toNat % 3 = 0 := by omega
          rcases hp.eq_one_or_self_of_dvd 3 (Nat.dvd_of_mod_eq_zero hmod)
            with h' | h' <;> omega
      · rw [if_neg h3]
        have hm5 : 5 ≤ n.toNat := by omega
        have hm2 : n.toNat % 2 ≠ 0 := by omega
        have hm3 : n.toNat % 3 ≠ 0 := by omega
        rw [loop6_eq_true_iff (by norm_num)]
        constructor
        · intro hnw
          refine ⟨by omega, ?_⟩
          by_contra hnp
          have hp := Nat.minFac_prime (n := n.toNat) (by omega)
          have hdvd := Nat.minFac_dvd n.toNat
          have hsq : n.toNat.minFac ^ 2 ≤ n.toNat :=
            Nat.minFac_sq_le_self (by omega) hnp
          set p := n.toNat.minFac with hpm
          have hp2 : p ≠ 2 := fun h => hm2 (Nat.mod_eq_zero_of_dvd (h ▸ hdvd))
          have hp3 : p ≠ 3 := fun h => hm3 (Nat.mod_eq_zero_of_dvd (h ▸ hdvd))
          have hple : 2 ≤ p := hp.two_le
          have hpm2 : p % 2 ≠ 0 := by
            intro h
            rcases hp.eq_one_or_self_of_dvd 2 (Nat.dvd_of_mod_eq_zero h)
              with h' | h' <;> omega
          have hpm3 : p % 3 ≠ 0 := by
            intro h
            rcases hp.eq_one_or_self_of_dvd 3 (Nat.dvd_of_mod_eq_zero h)
              with h' | h' <;> omega
          have hp6 : p % 6 = 1 ∨ p % 6 = 5 := by omega
          have hsq' : p * p ≤ n.toNat := by rwa [pow_two] at hsq
          rcases hp6 with h6 | h6
          · have hpj : 5 + 6 * (p / 6 - 1) + 2 = p := by omega
            have h52 : 5 + 6 * (p / 6 - 1) ≤ p := by omega
            have hle : (5 + 6 * (p / 6 - 1)) * (5 + 6 * (p / 6 - 1)) ≤ n.toNat :=
              le_trans (Nat.mul_le_mul h52 h52) hsq'
            exact (hnw (p / 6 - 1) hle).2 (by rw [hpj]; exact hdvd)
          · have hpj : 5 + 6 * (p / 6) = p := by omega
            have hle : (5 + 6 * (p / 6)) * (5 + 6 * (p / 6)) ≤ n.toNat := by
              rw [hpj]; exact hsq'
            exact (hnw (p / 6) hle).1 (by rw [hpj]; exact hdvd)
        · rintro ⟨-, hp⟩ j hj
          have h5 : 5 ≤ 5 + 6 * j := by omega
          have hmul : 5 * (5 + 6 * j) ≤ (5 + 6 * j) * (5 + 6 * j) :=
            Nat.mul_le_mul_right _ h5
          constructor
          · intro hdvd
            rcases hp.eq_one_or_self_of_dvd _ hdvd with h | h <;> omega
          · intro hdvd
            rcases hp.eq_one_or_self_of_dvd _ hdvd with h | h <;> omega

theorem mem_intRange {a b x : Int} : x ∈ intRange a b ↔ a ≤ x ∧ x < b := by
  unfold intRange
  simp only [List.mem_map, List.mem_range]
  constructor
  · rintro ⟨k, hk, rfl⟩
    omega
  · rintro ⟨hax, hxb⟩
    exact ⟨(x - a).toNat, by omega, by omega⟩

theorem intRange_pairwise (a b : Int) : (intRange a b).Pairwise (· < ·) := by
  unfold intRange
  refine List.Pairwise.map _ (fun x y h => ?_) (List.sorted_lt_range _)
  simp only at h ⊢
  omega

theorem intRange_nil {a b : Int} (h : b ≤ a) : intRange a b = [] := by
  unfold intRange
  rw [Int.toNat_of_nonpos (by omega), List.range_zero, List.map_nil]

theorem intRange_append {a b c : Int} (h1 : a ≤ b) (h2 : b ≤ c) :
    intRange a b ++ intRange b c = intRange a c := by
  unfold intRange
  have hn : (c - a).toNat = (b - a).toNat + (c - b).toNat := by omega
  rw [hn, List.range_add, List.map_append, List.map_map]
  congr 1
  apply List.map_congr_left
  intro k _
  simp only [Function.comp_apply]
  omega

theorem find_primes_in_range_pairwise (s e : Int) :
    (find_primes_in_range s e).Pairwise (· < ·) :=
  (intRange_pairwise s (e + 1)).filter _

theorem mem_find_primes_in_range {s e x : Int} :
    x ∈ find_primes_in_range s e ↔ s ≤ x ∧ x ≤ e ∧ is_prime x = true := by
  unfold find_primes_in_range
  rw [List.mem_filter, mem_intRange]
  constructor
  · rintro ⟨⟨h1, h2⟩, h3⟩
    exact ⟨h1, by omega, h3⟩
  · rintro ⟨h1, h2, h3⟩
    exact ⟨⟨h1, by omega⟩, h3⟩

theorem find_primes_in_range_nil {s e : Int} (h : e < s) :
    find_primes_in_range s e = [] := by
  unfold find_primes_in_range
  rw [intRange_nil (by omega), List.filter_nil]

theorem intRangeStep_nil {a b s : Int} (hs : 1 ≤ s) (h : b ≤ a) :
    intRangeStep a b s = [] := by
  unfold intRangeStep
  have hlt : (b - a + s - 1) / s < 1 :=
    (Int.ediv_lt_iff_lt_mul (by omega)).mpr (by omega)
  rw [Int.toNat_of_nonpos (by omega), List.range_zero, List.map_nil]

theorem intRangeStep_cons {a b s : Int} (hs : 1 ≤ s) (h : a < b) :
    intRangeStep a b s = a :: intRangeStep (a + s) b s := by
  unfold intRangeStep
  have key : (b - a + s - 1) / s = (b - (a + s) + s - 1) / s + 1 := by
    have harith : b - a + s - 1 = (b - (a + s) + s - 1) + 1 * s := by ring
    rw [harith, Int.add_mul_ediv_right _ _ (by omega : s ≠ 0)]
  have hpos : 1 ≤ (b - a + s - 1) / s := by
    rw [Int.le_ediv_iff_mul_le (by omega)]
    omega
  have h2 : ((b - (a + s) + s - 1) / s + 1).toNat
      = ((b - (a + s) + s - 1) / s).toNat + 1 := by omega
  rw [key, h2, List.range_succ_eq_map, List.map_cons, List.map_map]
  congr 1
  · simp
  · apply List.map_congr_left
    intro k _
    simp only [Function.comp_apply, Nat.succ_eq_add_one]
    push_cast
    ring

theorem chunkWalk_nil {start e cs : Int} (hs : 1 ≤ cs) (h : e < start) :
    chunkWalk start e cs = [] := by
  unfold chunkWalk
  rw [intRangeStep_nil hs (by omega), List.map_nil]

theorem chunkWalk_cons {start e cs : Int} (hs : 1 ≤ cs) (h : start ≤ e) :
    chunkWalk start e cs
      = (start, min (start + cs - 1) e) :: chunkWalk (start + cs) e cs := by
  unfold chunkWalk
  rw [intRangeStep_cons hs (by omega), List.map_cons]

/-- The chunk ranges, concatenated in production order, are exactly the
original range: full coverage, each integer exactly once, in order. -/
theorem chunkWalk_flatten {e cs : Int} (hs : 1 ≤ cs) (start : Int) :
    ((chunkWalk start e cs).map (fun c => intRange c.1 (c.2 + 1))).flatten
      = intRange start (e + 1) := by
  by_cases h : start ≤ e
  · have ih := chunkWalk_flatten (e := e) hs (start + cs)
    rw [chunkWalk_cons hs h, List.map_cons, List.flatten_cons, ih]
    by_cases h2 : start + cs ≤ e + 1
    · have hmin : min (start + cs - 1) e = start + cs - 1 := by omega
      rw [hmin, show start + cs - 1 + 1 = start + cs by ring]
      exact intRange_append (by omega) (by omega)
    · have hmin : min (start + cs - 1) e = e := by omega
      rw [hmin, intRange_nil (a := start + cs) (by omega), List.append_nil]
  · rw [chunkWalk_nil hs (by omega), List.map_nil, List.flatten_nil,
      intRange_nil (by omega)]
termination_by (e + 1 - start).toNat
decreasing_by omega

/-- Every produced chunk is nonempty and lies inside `[start, e]`,
starting no earlier than the walk's starting point. -/
theorem chunkWalk_mem {e cs : Int} (hs : 1 ≤ cs) (start : Int) :
    ∀ c ∈ chunkWalk start e cs, start ≤ c.1 ∧ c.1 ≤ c.2 ∧ c.2 ≤ e := by
  by_cases h : start ≤ e
  · have ih := chunkWalk_mem (e := e) hs (start + cs)
    rw [chunkWalk_cons hs h]
    intro c hc
    rcases List.mem_cons.mp hc with rfl | hc
    · exact ⟨le_refl _, by simp; omega, by simp⟩
    · have := ih c hc
      exact ⟨by omega, this.2.1, this.2.2⟩
  · rw [chunkWalk_nil hs (by omega)]
    intro c hc
    exact absurd hc (List.not_mem_nil c)
termination_by (e + 1 - start).toNat
decreasing_by omega

/-- Consecutive chunks are exactly contiguous: each chunk starts right
after the previous one ends (hence chunks are ascending and disjoint). -/
theorem chunkWalk_chain {e cs : Int} (hs : 1 ≤ cs) (start : Int) :
    List.Chain' (fun a b : Int × Int => b.1 = a.2 + 1) (chunkWalk start e cs) := by
  by_cases h : start ≤ e
  · rw [chunkWalk_cons hs h]
    by_cases h2 : start + cs ≤ e
    · have ih := chunkWalk_chain (e := e) hs (start + cs)
      rw [chunkWalk_cons hs h2] at ih ⊢
      rw [List.chain'_cons]
      refine ⟨?_, ih⟩
      simp only
      omega
    · rw [chunkWalk_nil hs (by omega)]
      exact List.chain'_singleton _
  · rw [chunkWalk_nil hs (by omega)]
    exact List.chain'_nil
termination_by (e + 1 - start).toNat
decreasing_by omega

/-- Chunks are pairwise non-overlapping and in strictly ascending order. -/
theorem chunkWalk_pairwise {e cs : Int} (hs : 1 ≤ cs) (start : Int) :
    List.Pairwise (fun a b : Int × Int => a.2 < b.1) (chunkWalk start e cs) := by
  by_cases h : start ≤ e
  · have ih := chunkWalk_pairwise (e := e) hs (start + cs)
    rw [chunkWalk_cons hs h]
    refine List.Pairwise.cons (fun c hc => ?_) ih
    have hb := (chunkWalk_mem hs (start + cs) c hc).1
    simp only
    omega
  · rw [chunkWalk_nil hs (by omega)]
    exact List.Pairwise.nil
termination_by (e + 1 - start).toNat
decreasing_by omega

theorem chunk_size_calc_pos (start e : Int) {w : Nat} (hw : 1 ≤ w) :
    ∃ cs : Int, chunk_size_calc start e w = some cs ∧ 1 ≤ cs := by
  unfold chunk_size_calc
  rw [if_neg (by omega)]
  refine ⟨_, rfl, ?_⟩
  split <;> omega

theorem sortAsc_perm (l : List Int) : (sortAsc l).Perm l :=
  List.perm_insertionSort _ _

theorem sortAsc_pairwise (l : List Int) : (sortAsc l).Pairwise (· ≤ ·) :=
  List.sorted_insertionSort _ _

theorem sortAsc_congr_perm {l₁ l₂ : List Int} (h : l₁.Perm l₂) :
    sortAsc l₁ = sortAsc l₂ :=
  List.eq_of_perm_of_sorted
    ((sortAsc_perm l₁).trans (h.trans (sortAsc_perm l₂).symm))
    (sortAsc_pairwise l₁) (sortAsc_pairwise l₂)

theorem sortAsc_of_pairwise {l : List Int} (h : l.Pairwise (· ≤ ·)) :
    sortAsc l = l :=
  List.eq_of_perm_of_sorted (sortAsc_perm l) (sortAsc_pairwise l) h

/-- Because the chunks partition the range exactly, concatenating the
per-chunk prime lists in production order gives exactly the primes of the
whole range, already in ascending order. -/
theorem merge_chunks_chunkWalk {e cs : Int} (hs : 1 ≤ cs) (start : Int) :
    merge_chunks (chunkWalk start e cs) = find_primes_in_range start e := by
  simp only [merge_chunks, find_primes_in_range]
  rw [← chunkWalk_flatten (e := e) hs start, List.filter_flatten, List.map_map]
  rfl

theorem find_primes_in_range_pairwise_le (s e : Int) :
    (find_primes_in_range s e).Pairwise (· ≤ ·) :=
  (find_primes_in_range_pairwise s e).imp le_of_lt

/-- Both fan-out strategies return exactly the sequential result, for any
order in which the threading workers appended their chunk results. -/
theorem strategies_agree {start e : Int} {w : Nat} {arrival : List (Int × Int)}
    (hw : 1 ≤ w) (ha : arrival.Perm (py_chunks start e w)) :
    find_primes_threading start e w arrival = some (find_primes_sequential start e)
      ∧ find_primes_multiprocessing start e w = some (find_primes_sequential start e) := by
  obtain ⟨cs, hcs, hcs1⟩ := chunk_size_calc_pos start e hw
  have hchunks : py_chunks start e w = chunkWalk start e cs := by
    unfold py_chunks
    rw [hcs]
  have hmerge : merge_chunks (chunkWalk start e cs) = find_primes_in_range start e :=
    merge_chunks_chunkWalk hcs1 start
  have hseq : sortAsc (find_primes_in_range start e) = find_primes_in_range start e :=
    sortAsc_of_pairwise (find_primes_in_range_pairwise_le start e)
  rw [hchunks] at ha
  constructor
  · have hperm : (merge_chunks arrival).Perm (merge_chunks (chunkWalk start e cs)) := by
      unfold merge_chunks
      exact (ha.map _).flatten
    simp only [find_primes_threading, hcs, find_primes_sequential]
    rw [sortAsc_congr_perm hperm, hmerge, hseq]
  · simp only [find_primes_multiprocessing, hcs, find_primes_sequential]
    rw [hmerge, hseq]

/-- One benchmark record, mirroring the dictionaries built by
`benchmark_all_methods` (lines 101-105, 111-116, 123-128); the sequential
record has no `speedup` key, modelled as `none`. -/
structure BenchmarkRecord where
  primes_found : Nat
  execution_time : ℚ
  workers : Nat
  speedup : Option ℚ
deriving DecidableEq

/-- The three per-strategy records returned by `benchmark_all_methods`. -/
structure BenchmarkResults where
  sequential : BenchmarkRecord
  threading : BenchmarkRecord
  multiprocessing : BenchmarkRecord
deriving DecidableEq

/-- Function `benchmark_all_methods` (lines 94-132), minus wall-clock timing: the
three measured durations are inputs (`tseq`, `tthr`, `tmp`), since elapsed
real time is outside the value model.  The speedup entries divide the
sequential duration by the strategy's duration exactly as on lines 115
and 127.  `none` propagates a failure of either fan-out strategy.
Caveat (the divergence of code_bug claim C7): this is the intended
dataflow.  Because `find_primes_multiprocessing` raises on every nonempty
range (unpicklable lambda, line 84), the live function raises at the
multiprocessing call (line 122) and returns no records there; it completes
only on empty ranges, where this model and the live code agree. -/
def benchmark_all_methods (start e : Int) (w : Nat) (arrival : List (Int × Int))
    (tseq tthr tmp : ℚ) : Option BenchmarkResults :=
  match find_primes_threading start e w arrival, find_primes_multiprocessing start e w with
  | some primes_thread, some primes_multi =>
    some { sequential := { primes_found := (find_primes_sequential start e).length
                         , execution_time := tseq, workers := 1, speedup := none }
         , threading := { primes_found := primes_thread.length
                        , execution_time := tthr, workers := w
                        , speedup := some (tseq / tthr) }
         , multiprocessing := { primes_found := primes_multi.length
                              , execution_time := tmp, workers := w
                              , speedup := some (tseq / tmp) } }
  | _, _ => none

/-- The `configuration` entry `main` adds to the summary (lines 153-157):
`start_range`, `end_range` and `cpu_count = os.cpu_count()`.  Note the
worker count used for the run is not among its fields. -/
structure Configuration where
  start_range : Int
  end_range : Int
  cpu_count : Nat
deriving DecidableEq

/-- A value of the heterogeneous summary dictionary built by `main`. -/
inductive SummaryEntry where
  | record : BenchmarkRecord → SummaryEntry
  | config : Configuration → SummaryEntry
  | primes : List Int → SummaryEntry
deriving DecidableEq

/-- The combined summary built by `main` in the `--method all` branch
(lines 149-160): the per-strategy records keyed by strategy name, the
`configuration` echo (with the machine's `cpu_count`, an input here), and
optionally the raw prime list (the sequential strategy's list, which is
what `benchmark_all_methods` returns as `primes`).
Caveat, inherited from `benchmark_all_methods`: the live `main` reaches
this summary-building code only when the benchmark completes, i.e. only
on empty ranges (`start > end`); on nonempty ranges it crashes earlier
with the `PicklingError` of line 84.  Theorems about this definition are
therefore stated on the empty-range domain, where it is faithful. -/
def main_summary (start e : Int) (workers cpu : Nat) (arrival : List (Int × Int))
    (tseq tthr tmp : ℚ) (save : Bool) : Option (List (String × SummaryEntry)) :=
  match benchmark_all_methods start e workers arrival tseq tthr tmp with
  | none => none
  | some r =>
    some ([("sequential", SummaryEntry.record r.sequential),
           ("threading", SummaryEntry.record r.threading),
           ("multiprocessing", SummaryEntry.record r.multiprocessing),
           ("configuration", SummaryEntry.config ⟨start, e, cpu⟩)]
      ++ (if save then [("primes", SummaryEntry.primes (find_primes_sequential start e))]
          else []))

/-- Claim C1: for every integer `n`, `is_prime n` returns `true` iff `n`
is prime (false for `n ≤ 1`, so negative inputs are not prime here), and
on the inputs {1,2,3,4,5,6,7,8,9,10,11,100,101,1000,1009} it matches the
truth table (F,T,T,F,T,F,T,F,F,F,T,F,T,F,T). -/
theorem c1_is_prime_iff_prime :
    (∀ n : Int, is_prime n = true ↔ 2 ≤ n ∧ Nat.Prime n.toNat)
    ∧ ([1, 2, 3, 4, 5, 6, 7, 8, 9, 10, 11, 100, 101, 1000, 1009] : List Int).map is_prime
      = [false, true, true, false, true, false, true, false, false, false,
         true, false, true, false, true] :=
  ⟨is_prime_correct, by decide⟩

set_option maxRecDepth 10000 in
/-- Claim C2: for `start ≤ end`, `find_primes_in_range start end` is
strictly ascending, every element passes `is_prime`, and no integer of
`[start, end]` passing `is_prime` is omitted; the primes in [1,100]
number 25 with first five [2,3,5,7,11] and last three [83,89,97], and the
primes in [1,1000] number 168. -/
theorem c2_find_primes_in_range_correct :
    (∀ start e : Int, start ≤ e →
      (find_primes_in_range start e).Pairwise (· < ·)
      ∧ (∀ x ∈ find_primes_in_range start e, is_prime x = true)
      ∧ (∀ x : Int, start ≤ x → x ≤ e → is_prime x = true →
          x ∈ find_primes_in_range start e))
    ∧ (find_primes_in_range 1 100).length = 25
    ∧ (find_primes_in_range 1 100).take 5 = [2, 3, 5, 7, 11]
    ∧ (find_primes_in_range 1 100).drop 22 = [83, 89, 97]
    ∧ (find_primes_in_range 1 1000).length = 168 := by
  refine ⟨fun s e _ => ?_, by decide, by decide, by decide, by decide⟩
  exact ⟨find_primes_in_range_pairwise s e,
    fun x hx => (mem_find_primes_in_range.mp hx).2.2,
    fun x h1 h2 h3 => mem_find_primes_in_range.mpr ⟨h1, h2, h3⟩⟩

theorem c2_witness :
    (find_primes_in_range 10 20).Pairwise (· < ·)
    ∧ (∀ x ∈ find_primes_in_range 10 20, is_prime x = true)
    ∧ (∀ x : Int, 10 ≤ x → x ≤ 20 → is_prime x = true →
        x ∈ find_primes_in_range 10 20) :=
  c2_find_primes_in_range_correct.1 10 20 (by decide)

set_option maxRecDepth 10000 in
/-- Claim C3 (the intended behaviour; the live `find_primes_multiprocessing`
raises before producing a value, see RESULTS): at the value level the three
strategies agree — both fan-out strategies return exactly the sequential
list (hence identical sets), whatever order the threading workers appended
their chunk results in, the returned list is sorted ascending, and on
[1,1000] it has 168 elements. -/
theorem c3_strategies_equivalent :
    (∀ (start e : Int) (w : Nat) (arrival : List (Int × Int)),
      1 ≤ w → arrival.Perm (py_chunks start e w) →
        find_primes_threading start e w arrival = some (find_primes_sequential start e)
        ∧ find_primes_multiprocessing start e w = some (find_primes_sequential start e)
        ∧ (find_primes_sequential start e).Pairwise (· ≤ ·))
    ∧ (find_primes_sequential 1 1000).length = 168 := by
  refine ⟨fun s e w arrival hw ha => ?_, by decide⟩
  obtain ⟨h1, h2⟩ := strategies_agree hw ha
  exact ⟨h1, h2, find_primes_in_range_pairwise_le s e⟩

theorem c3_witness :
    find_primes_threading 1 10 3 (py_chunks 1 10 3) = some (find_primes_sequential 1 10)
    ∧ find_primes_multiprocessing 1 10 3 = some (find_primes_sequential 1 10)
    ∧ (find_primes_sequential 1 10).Pairwise (· ≤ ·) :=
  c3_strategies_equivalent.1 1 10 3 (py_chunks 1 10 3) (by decide) (List.Perm.refl _)

/-- Claim C4: for `worker_count ≥ 1` the partition walk produces chunks
whose ranges concatenate exactly to `[start, end]` (full coverage, each
integer once, in order), each chunk nonempty, consecutive chunks exactly
contiguous, chunks pairwise non-overlapping and ascending; and when
`start > end` zero chunks are produced. -/
theorem c4_partition_correct :
    ∀ (start e : Int) (w : Nat), 1 ≤ w →
      ((py_chunks start e w).map (fun c => intRange c.1 (c.2 + 1))).flatten
          = intRange start (e + 1)
      ∧ (∀ c ∈ py_chunks start e w, c.1 ≤ c.2)
      ∧ List.Chain' (fun a b : Int × Int => b.1 = a.2 + 1) (py_chunks start e w)
      ∧ List.Pairwise (fun a b : Int × Int => a.2 < b.1) (py_chunks start e w)
      ∧ (e < start → py_chunks start e w = []) := by
  intro start e w hw
  obtain ⟨cs, hcs, hcs1⟩ := chunk_size_calc_pos start e hw
  have hchunks : py_chunks start e w = chunkWalk start e cs := by
    unfold py_chunks
    rw [hcs]
  rw [hchunks]
  exact ⟨chunkWalk_flatten hcs1 start,
    fun c hc => ((chunkWalk_mem hcs1 start) c hc).2.1,
    chunkWalk_chain hcs1 start,
    chunkWalk_pairwise hcs1 start,
    fun h => chunkWalk_nil hcs1 h⟩

theorem c4_witness :
    ((py_chunks 1 10 3).map (fun c => intRange c.1 (c.2 + 1))).flatten
        = intRange 1 (10 + 1)
    ∧ (∀ c ∈ py_chunks 1 10 3, c.1 ≤ c.2)
    ∧ List.Chain' (fun a b : Int × Int => b.1 = a.2 + 1) (py_chunks 1 10 3)
    ∧ List.Pairwise (fun a b : Int × Int => a.2 < b.1) (py_chunks 1 10 3)
    ∧ ((10 : Int) < 1 → py_chunks 1 10 3 = []) :=
  c4_partition_correct 1 10 3 (by decide)

/-- Claim C5: for `start > end`, `find_primes_in_range` and all three
strategies return an empty prime list (no error); in particular
`find_primes_in_range 0 1` and `find_primes_in_range 10 5` are empty. -/
theorem c5_empty_range :
    (∀ (start e : Int) (w : Nat) (arrival : List (Int × Int)),
      e < start → 1 ≤ w → arrival.Perm (py_chunks start e w) →
        find_primes_in_range start e = []
        ∧ find_primes_sequential start e = []
        ∧ find_primes_threading start e w arrival = some []
        ∧ find_primes_multiprocessing start e w = some [])
    ∧ find_primes_in_range 0 1 = [] ∧ find_primes_in_range 10 5 = [] := by
  refine ⟨?_, by decide, by decide⟩
  intro s e w arrival h hw ha
  have hnil : find_primes_in_range s e = [] := find_primes_in_range_nil h
  obtain ⟨h1, h2⟩ := strategies_agree hw ha
  have hseq : find_primes_sequential s e = [] := hnil
  rw [hseq] at h1 h2
  exact ⟨hnil, hseq, h1, h2⟩

theorem c5_witness :
    find_primes_in_range 10 5 = []
    ∧ find_primes_sequential 10 5 = []
    ∧ find_primes_threading 10 5 2 (py_chunks 10 5 2) = some []
    ∧ find_primes_multiprocessing 10 5 2 = some [] :=
  c5_empty_range.1 10 5 2 (py_chunks 10 5 2) (by decide) (by decide) (List.Perm.refl _)

/-- Claim C6 counterexample: with `worker_count = 0` the chunk-size
computation divides before it clamps, so it fails with a division error
(modelled as `none`): the claim that the clamp guards the division is
false on the code. -/
theorem c6_counterexample :
    chunk_size_calc 1 1000 0 = none
    ∧ find_primes_threading 1 1000 0 [] = none
    ∧ find_primes_multiprocessing 1 1000 0 = none :=
  ⟨rfl, rfl, rfl⟩

/-- Claim C6 as amended: the clamp guarantees a chunk size of at least 1
for every `worker_count ≥ 1`; `worker_count = 0` itself fails with a
division error because the division precedes the clamp. -/
theorem c6_amended_clamp :
    ∀ (start e : Int) (w : Nat), 1 ≤ w →
      ∃ cs : Int, chunk_size_calc start e w = some cs ∧ 1 ≤ cs :=
  fun start e _ hw => chunk_size_calc_pos start e hw

theorem c6_witness :
    ∃ cs : Int, chunk_size_calc 1 1000 4 = some cs ∧ 1 ≤ cs :=
  c6_amended_clamp 1 1000 4 (by decide)

/-- Claim C7 (the intended behaviour; on every nonempty range the live
`benchmark_all_methods` raises `PicklingError` at the multiprocessing call
before producing any record, see RESULTS): the benchmark dataflow produces
one record per strategy with `primes_found`, `execution_time` and
`workers` fields; the sequential record has `workers = 1` and no speedup
entry, while the threading and multiprocessing records carry `speedup`
equal to the sequential duration divided by their own duration. -/
theorem c7_benchmark_records :
    ∀ (start e : Int) (w : Nat) (arrival : List (Int × Int)) (tseq tthr tmp : ℚ),
      1 ≤ w →
      ∃ r : BenchmarkResults,
        benchmark_all_methods start e w arrival tseq tthr tmp = some r
        ∧ r.sequential.primes_found = (find_primes_sequential start e).length
        ∧ r.sequential.execution_time = tseq
        ∧ r.sequential.workers = 1
        ∧ r.sequential.speedup = none
        ∧ r.threading.execution_time = tthr
        ∧ r.threading.workers = w
        ∧ r.threading.speedup = some (tseq / tthr)
        ∧ r.multiprocessing.execution_time = tmp
        ∧ r.multiprocessing.workers = w
        ∧ r.multiprocessing.speedup = some (tseq / tmp) := by
  intro s e w arrival tseq tthr tmp hw
  obtain ⟨cs, hcs, -⟩ := chunk_size_calc_pos s e hw
  simp only [benchmark_all_methods, find_primes_threading, find_primes_multiprocessing, hcs]
  exact ⟨_, rfl, rfl, rfl, rfl, rfl, rfl, rfl, rfl, rfl, rfl, rfl⟩

theorem c7_witness :
    ∃ r : BenchmarkResults,
      benchmark_all_methods 1 10 2 (py_chunks 1 10 2) 4 2 1 = some r
      ∧ r.sequential.primes_found = (find_primes_sequential 1 10).length
      ∧ r.sequential.execution_time = 4
      ∧ r.sequential.workers = 1
      ∧ r.sequential.speedup = none
      ∧ r.threading.execution_time = 2
      ∧ r.threading.workers = 2
      ∧ r.threading.speedup = some (4 / 2)
      ∧ r.multiprocessing.execution_time = 1
      ∧ r.multiprocessing.workers = 2
      ∧ r.multiprocessing.speedup = some (4 / 1) :=
  c7_benchmark_records 1 10 2 (py_chunks 1 10 2) 4 2 1 (by decide)

/-- Claim C8 counterexample, at an input where the live harness actually
completes and builds the summary: on the empty range `(10, 5)` no
multiprocessing task is dispatched (so the line-84 lambda is never
pickled), the benchmark finishes, and running with 4 workers on a machine
with 8 CPUs yields the configuration echo `⟨10, 5, 8⟩` — range bounds
plus the machine's CPU count.  Its only non-range field is
`cpu_count = 8 ≠ 4`: the worker count used for the run does not appear,
contradicting the claim. -/
theorem c8_counterexample :
    (main_summary 10 5 4 8 (py_chunks 10 5 4) 1 1 1 false).map
        (fun l => l.lookup "configuration")
      = some (some (SummaryEntry.config ⟨10, 5, 8⟩))
    ∧ (8 : Nat) ≠ 4 := by
  exact ⟨by decide, by decide⟩

/-- Claim C8 as amended, stated on the domain where the live harness
reaches the summary-building code at all — empty ranges, since on any
nonempty range `benchmark_all_methods` raises first (the C3/C7 bug): the
summary is keyed by strategy name and includes a configuration echo
containing the range bounds and the machine's CPU count (not the worker
count used, which appears only in the per-strategy records' `workers`
field). -/
theorem c8_amended_summary :
    ∀ (start e : Int) (workers cpu : Nat) (arrival : List (Int × Int))
      (tseq tthr tmp : ℚ) (save : Bool), 1 ≤ workers → e < start →
      ∃ summary : List (String × SummaryEntry),
        main_summary start e workers cpu arrival tseq tthr tmp save = some summary
        ∧ summary.map Prod.fst
            = ["sequential", "threading", "multiprocessing", "configuration"]
              ++ (if save then ["primes"] else [])
        ∧ summary.lookup "configuration" = some (SummaryEntry.config ⟨start, e, cpu⟩) := by
  intro s e workers cpu arrival tseq tthr tmp save hw _
  obtain ⟨cs, hcs, -⟩ := chunk_size_calc_pos s e hw
  simp only [main_summary, benchmark_all_methods, find_primes_threading,
    find_primes_multiprocessing, hcs]
  refine ⟨_, rfl, ?_, ?_⟩
  · cases save <;> rfl
  · rfl

theorem c8_witness :
    ∃ summary : List (String × SummaryEntry),
      main_summary 10 5 2 8 (py_chunks 10 5 2) 1 1 1 true = some summary
      ∧ summary.map Prod.fst
          = ["sequential", "threading", "multiprocessing", "configuration"]
            ++ (if true then ["primes"] else [])
      ∧ summary.lookup "configuration" = some (SummaryEntry.config ⟨10, 5, 8⟩) :=
  c8_amended_summary 10 5 2 8 (py_chunks 10 5 2) 1 1 1 true (by decide) (by decide)

/-- Claim C9 (the intended behaviour; the live `find_primes_multiprocessing`
raises before producing a value, see RESULTS): a worker count larger than
the range still gives the right answer — the multiprocessing dataflow on
`(1, 10)` with 20 workers yields `[2, 3, 5, 7]` — and with one worker both
fan-out strategies return exactly the sequential result (so the same
number of primes). -/
theorem c9_worker_count_edge_cases :
    find_primes_multiprocessing 1 10 20 = some [2, 3, 5, 7]
    ∧ (∀ (start e : Int) (arrival : List (Int × Int)),
        arrival.Perm (py_chunks start e 1) →
          find_primes_threading start e 1 arrival = some (find_primes_sequential start e)
          ∧ find_primes_multiprocessing start e 1 = some (find_primes_sequential start e)) :=
  ⟨by decide, fun s e arrival ha => strategies_agree (by decide) ha⟩

theorem c9_witness :
    find_primes_threading 1 100 1 (py_chunks 1 100 1) = some (find_primes_sequential 1 100)
    ∧ find_primes_multiprocessing 1 100 1 = some (find_primes_sequential 1 100) :=
  c9_worker_count_edge_cases.2 1 100 (py_chunks 1 100 1) (List.Perm.refl _)

/-- Claim C10: the trial-division loop of `is_prime` terminates — each
iteration strictly decreases the measure `n + 1 - i*i`, and once the fuel
reaches that measure the fuel-indexed loop `loop6Aux` has converged to its
limit `loop6` (so `is_prime`, which runs the loop with exactly that much
fuel, is total). -/
theorem c10_loop_terminates :
    (∀ n i : Nat, i * i ≤ n → n + 1 - (i + 6) * (i + 6) < n + 1 - i * i)
    ∧ (∀ (n i fuel : Nat), n + 1 - i * i ≤ fuel → loop6Aux fuel n i = loop6 n i) := by
  constructor
  · intro n i h
    have hsq : (i + 6) * (i + 6) = i * i + (12 * i + 36) := by ring
    omega
  · intro n i fuel hf
    exact loop6Aux_congr fuel (n + 1 - i * i) n i hf (le_refl _)

theorem c10_witness :
    (97 + 1 - (5 + 6) * (5 + 6) < 97 + 1 - 5 * 5)
    ∧ loop6Aux 73 97 5 = loop6 97 5 :=
  ⟨c10_loop_terminates.1 97 5 (by decide), c10_loop_terminates.2 97 5 73 (by decide)⟩

end PrimeFinder
